import Mathlib

/-!
Verification of the construct-tree synthesis engine specification against the
repository sources.

Part A embeds the subnet-placement selection logic of `VpcNetworkBase.subnets`
(`packages/@aws-cdk/aws-ec2/lib/vpc.ts`) faithfully, modelling the TypeScript
control flow with an `Except` result for thrown errors.

Part B models the synthesis engine (token lowering, template assembly, logical
id allocation, dependency-graph topological ordering) whose implementation is
not among the sampled sources; those definitions are modelled from the spec and
are marked as such in their doc comments.
-/

/-! ## Part A: subnet placement selection (from vpc.ts) -/

/-- The type of Subnet (enum `SubnetType` in vpc.ts). -/
inductive SubnetType where
  | Isolated
  | Private
  | Public
deriving DecidableEq

/-- Options for querying subnets (enum `SubnetQuery` in vpc.ts). -/
inductive SubnetQuery where
  | Required
  | AllowNone
deriving DecidableEq

/-- A subnet of the VPC.  Only the fields the selection logic reads are kept:
the name is what the `subnetName` helper from './util' reads (that helper is
not among the sampled sources; per the spec it returns the name supplied in
the subnet configuration). -/
structure VpcSubnet where
  availabilityZone : String
  subnetId : String
  name : String
deriving DecidableEq

/-- Modelled from the spec: the `subnetName` helper imported from './util' is
not among the sampled sources; the spec describes it as returning "the name
supplied in subnetConfiguration" for a subnet. -/
def subnetName (s : VpcSubnet) : String := s.name

/-- Customize how instances are placed inside a VPC
(`VpcPlacementStrategy` in vpc.ts); optional fields become `Option`. -/
structure VpcPlacementStrategy where
  subnetsToUse : Option SubnetType
  subnetName : Option String
deriving DecidableEq

/-- The state of a VPC network that `VpcNetworkBase.subnets` reads:
its public, private and isolated subnet lists. -/
structure VpcNetwork where
  publicSubnets : List VpcSubnet
  privateSubnets : List VpcSubnet
  isolatedSubnets : List VpcSubnet
deriving DecidableEq

/-- The errors thrown by `VpcNetworkBase.subnets`, one constructor per
`throw new Error(...)` site in vpc.ts. -/
inductive SubnetsError where
  /-- 'At most one of subnetsToUse and subnetName can be supplied' -/
  | atMostOne
  /-- 'No subnets with name: ...' -/
  | noSubnetsWithName (name : String)
  /-- 'No subnets in this VPC match ... Please select a different set of subnets.' -/
  | noSubnetsMatch
deriving DecidableEq

/-- The subnet list vpc.ts selects for a given `SubnetType` (the object
literal keyed by `placement.subnetsToUse` in `subnets`). -/
def subnetsOfType (vpc : VpcNetwork) : SubnetType → List VpcSubnet
  | .Isolated => vpc.isolatedSubnets
  | .Private => vpc.privateSubnets
  | .Public => vpc.publicSubnets

/-- `VpcNetworkBase.subnets` from vpc.ts, with thrown errors as `Except.error`:
first the over-constrained check, then selection by name (with its own
unconditional emptiness error), then the default (private subnets), then
selection by type with the `SubnetQuery.Required` emptiness check. -/
def subnets (vpc : VpcNetwork) (placement : VpcPlacementStrategy)
    (required : SubnetQuery) : Except SubnetsError (List VpcSubnet) :=
  if placement.subnetsToUse.isSome && placement.subnetName.isSome then
    .error .atMostOne
  else
    match placement.subnetName with
    | some n =>
      let allSubnets := vpc.privateSubnets ++ vpc.publicSubnets ++ vpc.isolatedSubnets
      let selectedSubnets := allSubnets.filter (fun s => subnetName s == n)
      if selectedSubnets.length == 0 then
        .error (.noSubnetsWithName n)
      else
        .ok selectedSubnets
    | none =>
      match placement.subnetsToUse with
      | none => .ok vpc.privateSubnets
      | some t =>
        let selected := subnetsOfType vpc t
        if required == SubnetQuery.Required && selected.length == 0 then
          .error .noSubnetsMatch
        else
          .ok selected

/-- C1: with `subnetsToUse` supplied and `subnetName` absent, `subnets` raises
the empty-selection error exactly when the query mode is `Required` and the
selected subnet list is empty; in `AllowNone` mode an empty selection is
returned as the empty list without error. -/
theorem C1_subnets_by_type_empty_selection (vpc : VpcNetwork) (t : SubnetType)
    (q : SubnetQuery) :
    (subnets vpc ⟨some t, none⟩ q = .error .noSubnetsMatch ↔
      (q = .Required ∧ subnetsOfType vpc t = [])) ∧
    (q = .AllowNone → subnetsOfType vpc t = [] →
      subnets vpc ⟨some t, none⟩ q = .ok []) := by
  have hsel : subnets vpc ⟨some t, none⟩ q =
      if q == SubnetQuery.Required && (subnetsOfType vpc t).length == 0 then
        .error .noSubnetsMatch
      else
        .ok (subnetsOfType vpc t) := rfl
  constructor
  · rw [hsel]
    cases q <;> by_cases he : subnetsOfType vpc t = [] <;>
      simp_all [List.length_eq_zero]
  · intro hq he
    subst hq
    rw [hsel]
    simp [he]

/-- C1 witness: on a VPC with no subnets at all, selecting private subnets in
`AllowNone` mode returns the empty list, and the error condition matches the
`Required`-and-empty characterization. -/
theorem C1_subnets_by_type_empty_selection_witness :
    (subnets ⟨[], [], []⟩ ⟨some .Private, none⟩ .AllowNone = .error .noSubnetsMatch ↔
      (SubnetQuery.AllowNone = .Required ∧ subnetsOfType ⟨[], [], []⟩ .Private = [])) ∧
    (SubnetQuery.AllowNone = .AllowNone → subnetsOfType ⟨[], [], []⟩ .Private = [] →
      subnets ⟨[], [], []⟩ ⟨some .Private, none⟩ .AllowNone = .ok []) :=
  C1_subnets_by_type_empty_selection ⟨[], [], []⟩ .Private .AllowNone

/-- C2: supplying both `subnetsToUse` and `subnetName` always raises the
over-constrained (ambiguous selection) error, never a subnet list. -/
theorem C2_subnets_over_constrained (vpc : VpcNetwork) (t : SubnetType)
    (n : String) (q : SubnetQuery) :
    subnets vpc ⟨some t, some n⟩ q = .error .atMostOne := rfl

/-- C9: selecting by name ignores the query mode: the result is the same in
`Required` and `AllowNone` modes, an empty match raises the by-name error in
every mode, and a successful by-name selection is never the empty list. -/
theorem C9_subnets_by_name_ignores_query_mode (vpc : VpcNetwork) (n : String)
    (q : SubnetQuery) :
    (subnets vpc ⟨none, some n⟩ q = subnets vpc ⟨none, some n⟩ .Required) ∧
    ((vpc.privateSubnets ++ vpc.publicSubnets ++ vpc.isolatedSubnets).filter
        (fun s => subnetName s == n) = [] →
      subnets vpc ⟨none, some n⟩ q = .error (.noSubnetsWithName n)) ∧
    (∀ l, subnets vpc ⟨none, some n⟩ q = .ok l → l ≠ []) := by
  have hsel : subnets vpc ⟨none, some n⟩ q =
      if ((vpc.privateSubnets ++ vpc.publicSubnets ++ vpc.isolatedSubnets).filter
            (fun s => subnetName s == n)).length == 0 then
        .error (.noSubnetsWithName n)
      else
        .ok ((vpc.privateSubnets ++ vpc.publicSubnets ++ vpc.isolatedSubnets).filter
          (fun s => subnetName s == n)) := rfl
  refine ⟨rfl, ?_, ?_⟩
  · intro hfilter
    rw [hsel, hfilter]
    rfl
  · intro l hl hnil
    subst hnil
    rw [hsel] at hl
    by_cases h : (vpc.privateSubnets ++ vpc.publicSubnets ++ vpc.isolatedSubnets).filter
        (fun s => subnetName s == n) = []
    · rw [h] at hl
      simp only [List.length_nil, beq_self_eq_true, if_true] at hl
      exact Except.noConfusion hl
    · have hcond : (((vpc.privateSubnets ++ vpc.publicSubnets ++
          vpc.isolatedSubnets).filter (fun s => subnetName s == n)).length == 0) = false := by
        simpa [List.length_eq_zero] using h
      rw [hcond] at hl
      simp only [Bool.false_eq_true, if_false, Except.ok.injEq] at hl
      exact h hl

/-- C9 witness: on a VPC with no subnets, a by-name query for "Name" in
`AllowNone` mode behaves as in `Required` mode, errors on the empty match, and
admits no successful empty result. -/
theorem C9_subnets_by_name_ignores_query_mode_witness :
    (subnets ⟨[], [], []⟩ ⟨none, some "Name"⟩ .AllowNone =
      subnets ⟨[], [], []⟩ ⟨none, some "Name"⟩ .Required) ∧
    ((VpcNetwork.privateSubnets ⟨[], [], []⟩ ++ VpcNetwork.publicSubnets ⟨[], [], []⟩ ++
        VpcNetwork.isolatedSubnets ⟨[], [], []⟩).filter
        (fun s => subnetName s == "Name") = [] →
      subnets ⟨[], [], []⟩ ⟨none, some "Name"⟩ .AllowNone =
        .error (.noSubnetsWithName "Name")) ∧
    (∀ l, subnets ⟨[], [], []⟩ ⟨none, some "Name"⟩ .AllowNone = .ok l → l ≠ []) :=
  C9_subnets_by_name_ignores_query_mode ⟨[], [], []⟩ "Name" .AllowNone

/-- C10: with no placement constraints at all, `subnets` returns exactly the
private subnet list in every query mode, with no emptiness check (in
particular an empty private list is returned without error even in
`Required` mode). -/
theorem C10_subnets_default_private (vpc : VpcNetwork) (q : SubnetQuery) :
    subnets vpc ⟨none, none⟩ q = .ok vpc.privateSubnets := rfl

/-- C10 witness: a VPC whose private subnet list is empty still yields
`ok []` in `Required` mode under the default placement. -/
theorem C10_subnets_default_private_witness :
    subnets ⟨[⟨"az1", "s1", "Public"⟩], [], []⟩ ⟨none, none⟩ .Required = .ok [] :=
  C10_subnets_default_private ⟨[⟨"az1", "s1", "Public"⟩], [], []⟩ .Required

/-! ## Part B: the synthesis engine, modelled from the spec

The engine implementation itself is not among the sampled sources; only its
serialized output (the expected template documents) is.  The definitions
below are therefore modelled from the spec and validated against the shapes
visible in those documents. -/

/-- A CloudFormation-style property value as it appears in a serialized
document: literal strings, reference and attribute placeholders, and the
intrinsic expressions the lowering targets (as seen throughout
integ.bucket-deployments.expected.json). -/
inductive CfnValue where
  | str (s : String)
  | ref (logicalId : String)
  | getAtt (logicalId attr : String)
  | fnJoin (delimiter : String) (parts : List CfnValue)
  | fnSelect (index : Nat) (v : CfnValue)
  | fnSplit (delimiter : String) (v : CfnValue)

/-- Left-to-right join of a list of strings with a delimiter between
consecutive elements. -/
def joinWith (d : String) : List String → String
  | [] => ""
  | [s] => s
  | s :: ss => s ++ d ++ joinWith d ss

/-- A deploy-time value: a concrete string, or the string list produced by a
split expression. -/
inductive DeployValue where
  | s (v : String)
  | l (vs : List String)
deriving DecidableEq

mutual

/-- Modelled from the spec: deploy-time evaluation of a serialized value,
given an environment assigning concrete strings to references and
attributes.  A join concatenates its parts with the delimiter between them,
a split cuts a string at the delimiter, and a select picks one component of
a split. -/
def evalCfn (env : String → String) : CfnValue → Option DeployValue
  | .str s => some (.s s)
  | .ref lid => some (.s (env lid))
  | .getAtt lid a => some (.s (env (lid ++ "." ++ a)))
  | .fnJoin d parts =>
    match evalCfnParts env parts with
    | some ss => some (.s (joinWith d ss))
    | none => none
  | .fnSelect i v =>
    match evalCfn env v with
    | some (.l vs) => (vs[i]?).map DeployValue.s
    | _ => none
  | .fnSplit d v =>
    match evalCfn env v with
    | some (.s s) => some (.l (s.splitOn d))
    | _ => none

/-- Evaluation of the parts of a join, in order; fails if any part fails or
produces a list. -/
def evalCfnParts (env : String → String) : List CfnValue → Option (List String)
  | [] => some []
  | p :: ps =>
    match evalCfn env p, evalCfnParts env ps with
    | some (.s s), some ss => some (s :: ss)
    | _, _ => none

end

/-- A fragment of a string concatenation: a literal piece, or a deferred
(token-valued) expression. -/
inductive StrFragment where
  | lit (s : String)
  | deferred (v : CfnValue)

/-- The serialized expression a fragment contributes as a join part. -/
def StrFragment.toValue : StrFragment → CfnValue
  | .lit s => .str s
  | .deferred v => v

/-- Whether the fragment is a deferred value. -/
def StrFragment.isDeferred : StrFragment → Bool
  | .lit _ => false
  | .deferred _ => true

/-- The literal text of a fragment (empty for a deferred one). -/
def StrFragment.litText : StrFragment → String
  | .lit s => s
  | .deferred _ => ""

/-- Modelled from the spec: lowering of string concatenation for
serialization.  When every fragment is a literal the concatenation is
performed eagerly; as soon as any fragment is deferred, the concatenation is
lowered to a join with the empty delimiter over the fragments in their
original order (as in the `Resource` property of `DestinationPolicy7982387E`,
which joins a deferred attribute with the literal "/*"). -/
def lowerConcat (frags : List StrFragment) : CfnValue :=
  if frags.any (fun f => f.isDeferred) then
    .fnJoin "" (frags.map StrFragment.toValue)
  else
    .str (joinWith "" (frags.map StrFragment.litText))

/-- Modelled from the spec: extraction of one component of a composite
deferred string is lowered to an index selection over an explicit
delimiter split (as in the `SourceObjectKey` property of
`DeployMeCustomResource4455EE35`). -/
def lowerComponent (delimiter : String) (v : CfnValue) (i : Nat) : CfnValue :=
  .fnSelect i (.fnSplit delimiter v)

/-- C3: a concatenation containing a deferred fragment serializes as the
join, over the empty delimiter, of the fragments' expressions in their
original order; it is never an eagerly concatenated literal string; and its
deploy-time evaluation is the concatenation of the parts' values, so the
join defers rather than changes the meaning. -/
theorem C3_join_lowering (frags : List StrFragment)
    (h : ∃ f ∈ frags, f.isDeferred = true) :
    lowerConcat frags = .fnJoin "" (frags.map StrFragment.toValue) ∧
    (∀ s, lowerConcat frags ≠ .str s) ∧
    (∀ env ss, evalCfnParts env (frags.map StrFragment.toValue) = some ss →
      evalCfn env (lowerConcat frags) = some (.s (joinWith "" ss))) := by
  have hany : frags.any (fun f => f.isDeferred) = true := by
    rw [List.any_eq_true]
    exact h
  have hlow : lowerConcat frags = .fnJoin "" (frags.map StrFragment.toValue) := by
    unfold lowerConcat
    rw [hany]
    simp
  refine ⟨hlow, ?_, ?_⟩
  · intro s hs
    rw [hlow] at hs
    exact CfnValue.noConfusion hs
  · intro env ss hss
    rw [hlow]
    unfold evalCfn
    rw [hss]

/-- C3 witness: the spec's own example, the literal "a/", a deferred
reference X and the literal "b", lowers to the ordered three-part join. -/
theorem C3_join_lowering_witness :
    (∃ f ∈ [StrFragment.lit "a/", .deferred (.ref "X"), .lit "b"],
      f.isDeferred = true) ∧
    (lowerConcat [StrFragment.lit "a/", .deferred (.ref "X"), .lit "b"] =
      .fnJoin "" [.str "a/", .ref "X", .str "b"] ∧
    (∀ s, lowerConcat [StrFragment.lit "a/", .deferred (.ref "X"), .lit "b"] ≠ .str s) ∧
    (∀ env ss,
      evalCfnParts env
        (List.map StrFragment.toValue
          [StrFragment.lit "a/", .deferred (.ref "X"), .lit "b"]) = some ss →
      evalCfn env (lowerConcat [StrFragment.lit "a/", .deferred (.ref "X"), .lit "b"]) =
        some (.s (joinWith "" ss)))) :=
  ⟨by decide, C3_join_lowering [StrFragment.lit "a/", .deferred (.ref "X"), .lit "b"]
    (by decide)⟩

/-- C4: an extracted component of a composite deferred string serializes as
an explicit select-of-split expression, never as a literal string, and its
deploy-time evaluation picks exactly the i-th component of the value split
at the delimiter, so the components are not computed eagerly. -/
theorem C4_select_split_lowering (d : String) (v : CfnValue) (i : Nat)
    (env : String → String) (s : String) (h : evalCfn env v = some (.s s)) :
    lowerComponent d v i = .fnSelect i (.fnSplit d v) ∧
    (∀ t, lowerComponent d v i ≠ .str t) ∧
    evalCfn env (lowerComponent d v i) = ((s.splitOn d)[i]?).map DeployValue.s := by
  refine ⟨rfl, ?_, ?_⟩
  · intro t ht
    exact CfnValue.noConfusion ht
  · have hsplit : evalCfn env (CfnValue.fnSplit d v) = some (.l (s.splitOn d)) := by
      unfold evalCfn
      rw [h]
    unfold lowerComponent
    unfold evalCfn
    rw [hsplit]

/-- C4 witness: a deferred version-key reference whose deploy-time value is
"objecthash||objectkey" is consumed through select-of-split at delimiter
"||", exactly as in the `SourceObjectKey` property. -/
theorem C4_select_split_lowering_witness :
    evalCfn (fun _ => "objecthash||objectkey") (.ref "DeployMeAssetS3VersionKey5A12D51F") =
      some (.s "objecthash||objectkey") ∧
    (lowerComponent "||" (.ref "DeployMeAssetS3VersionKey5A12D51F") 0 =
      .fnSelect 0 (.fnSplit "||" (.ref "DeployMeAssetS3VersionKey5A12D51F")) ∧
    (∀ t, lowerComponent "||" (.ref "DeployMeAssetS3VersionKey5A12D51F") 0 ≠ .str t) ∧
    evalCfn (fun _ => "objecthash||objectkey")
        (lowerComponent "||" (.ref "DeployMeAssetS3VersionKey5A12D51F") 0) =
      (("objecthash||objectkey".splitOn "||")[0]?).map DeployValue.s) :=
  ⟨rfl, C4_select_split_lowering "||" (.ref "DeployMeAssetS3VersionKey5A12D51F") 0
    (fun _ => "objecthash||objectkey") "objecthash||objectkey" rfl⟩

/-- An emitted entity declaration before assembly: its allocated logical id,
its resource type, and its property mapping. -/
structure ResourceDecl where
  logicalId : String
  resourceType : String
  properties : List (String × CfnValue)

/-- An aggregation boundary ("stack"): the entities declared in it, in
emission order, and the dependency edges registered between its nodes, as
pairs (consumer logical id, depended-on logical id). -/
structure Boundary where
  resources : List ResourceDecl
  edges : List (String × String)

/-- An emitted-entity record `{type, properties, dependsOn?}` of the output
document. -/
structure EmittedRecord where
  resourceType : String
  properties : List (String × CfnValue)
  dependsOn : List String

/-- The logical ids of the entities of a boundary. -/
def boundaryIds (b : Boundary) : List String :=
  b.resources.map (fun r => r.logicalId)

/-- Modelled from the spec: the dependency edges local to a boundary are
the ones both of whose endpoints are entities of that boundary. -/
def localEdges (b : Boundary) : List (String × String) :=
  b.edges.filter (fun e => (boundaryIds b).contains e.1 && (boundaryIds b).contains e.2)

/-- Modelled from the spec: the Template Assembler emits each entity with
the local dependency edges departing from it attached as its explicit
ordering annotation, the `DependsOn` list (cf. the `DependsOn` list of
`CustomCDKBucketDeployment8693BB64968944B69AAFB0CC9EB8756C81C01536` and of
`PipelineC660917D`). -/
def emitRecord (b : Boundary) (r : ResourceDecl) : EmittedRecord :=
  { resourceType := r.resourceType
    properties := r.properties
    dependsOn := ((localEdges b).filter (fun e => e.1 == r.logicalId)).map (fun e => e.2) }

/-- Modelled from the spec: a boundary's document section is the mapping of
each entity's logical id to its emitted record. -/
def assemble (b : Boundary) : List (String × EmittedRecord) :=
  b.resources.map (fun r => (r.logicalId, emitRecord b r))

/-- C5: every dependency edge both of whose endpoints are entities of the
boundary appears in the serialized document as an entry of the consuming
entity's `DependsOn` list, naming the depended-on entity's logical id. -/
theorem C5_local_edges_become_depends_on (b : Boundary) (e : String × String)
    (he : e ∈ b.edges) (h1 : e.1 ∈ boundaryIds b) (h2 : e.2 ∈ boundaryIds b) :
    ∀ rec, (e.1, rec) ∈ assemble b → e.2 ∈ rec.dependsOn := by
  intro rec hrec
  rw [assemble, List.mem_map] at hrec
  obtain ⟨r, hr, hpair⟩ := hrec
  have hid : r.logicalId = e.1 := congrArg Prod.fst hpair
  have hrecord : rec = emitRecord b r := congrArg Prod.snd hpair |>.symm
  subst hrecord
  show e.2 ∈ ((localEdges b).filter (fun e' => e'.1 == r.logicalId)).map (fun e' => e'.2)
  rw [List.mem_map]
  refine ⟨e, ?_, rfl⟩
  rw [List.mem_filter]
  refine ⟨?_, by rw [hid]; exact beq_self_eq_true e.1⟩
  rw [localEdges, List.mem_filter]
  refine ⟨he, ?_⟩
  have hc1 : (boundaryIds b).contains e.1 = true := List.elem_iff.mpr h1
  have hc2 : (boundaryIds b).contains e.2 = true := List.elem_iff.mpr h2
  rw [hc1, hc2]
  rfl

/-- C5 witness: the bucket-deployment provider boundary, whose lambda
function depends on its service role and on the role's default policy; both
edges surface in the lambda record's `DependsOn` list. -/
theorem C5_local_edges_become_depends_on_witness :
    (("CustomCDKBucketDeployment8693BB64968944B69AAFB0CC9EB8756C81C01536",
      "CustomCDKBucketDeployment8693BB64968944B69AAFB0CC9EB8756CServiceRole89A01265") ∈
      (Boundary.mk
        [⟨"CustomCDKBucketDeployment8693BB64968944B69AAFB0CC9EB8756CServiceRole89A01265",
          "AWS::IAM::Role", []⟩,
         ⟨"CustomCDKBucketDeployment8693BB64968944B69AAFB0CC9EB8756CServiceRoleDefaultPolicy88902FDF",
          "AWS::IAM::Policy", []⟩,
         ⟨"CustomCDKBucketDeployment8693BB64968944B69AAFB0CC9EB8756C81C01536",
          "AWS::Lambda::Function", []⟩]
        [("CustomCDKBucketDeployment8693BB64968944B69AAFB0CC9EB8756C81C01536",
          "CustomCDKBucketDeployment8693BB64968944B69AAFB0CC9EB8756CServiceRole89A01265"),
         ("CustomCDKBucketDeployment8693BB64968944B69AAFB0CC9EB8756C81C01536",
          "CustomCDKBucketDeployment8693BB64968944B69AAFB0CC9EB8756CServiceRoleDefaultPolicy88902FDF")]).edges) ∧
    (∀ rec,
      ("CustomCDKBucketDeployment8693BB64968944B69AAFB0CC9EB8756C81C01536", rec) ∈
        assemble (Boundary.mk
          [⟨"CustomCDKBucketDeployment8693BB64968944B69AAFB0CC9EB8756CServiceRole89A01265",
            "AWS::IAM::Role", []⟩,
           ⟨"CustomCDKBucketDeployment8693BB64968944B69AAFB0CC9EB8756CServiceRoleDefaultPolicy88902FDF",
            "AWS::IAM::Policy", []⟩,
           ⟨"CustomCDKBucketDeployment8693BB64968944B69AAFB0CC9EB8756C81C01536",
            "AWS::Lambda::Function", []⟩]
          [("CustomCDKBucketDeployment8693BB64968944B69AAFB0CC9EB8756C81C01536",
            "CustomCDKBucketDeployment8693BB64968944B69AAFB0CC9EB8756CServiceRole89A01265"),
           ("CustomCDKBucketDeployment8693BB64968944B69AAFB0CC9EB8756C81C01536",
            "CustomCDKBucketDeployment8693BB64968944B69AAFB0CC9EB8756CServiceRoleDefaultPolicy88902FDF")]) →
      "CustomCDKBucketDeployment8693BB64968944B69AAFB0CC9EB8756CServiceRole89A01265" ∈
        rec.dependsOn) :=
  ⟨by decide,
    C5_local_edges_become_depends_on _
      ("CustomCDKBucketDeployment8693BB64968944B69AAFB0CC9EB8756C81C01536",
       "CustomCDKBucketDeployment8693BB64968944B69AAFB0CC9EB8756CServiceRole89A01265")
      (by decide) (by decide) (by decide)⟩

mutual

/-- Serialization of a property value to its concrete document text, with
the intrinsic expressions rendered as in the expected template documents. -/
def serializeValue : CfnValue → String
  | .str s => "\"" ++ s ++ "\""
  | .ref lid => "\x7b\"Ref\":\"" ++ lid ++ "\"\x7d"
  | .getAtt lid a => "\x7b\"Fn::GetAtt\":[\"" ++ lid ++ "\",\"" ++ a ++ "\"]\x7d"
  | .fnJoin d parts =>
    "\x7b\"Fn::Join\":[\"" ++ d ++ "\",[" ++ serializeValueList parts ++ "]]\x7d"
  | .fnSelect i v =>
    "\x7b\"Fn::Select\":[" ++ toString i ++ "," ++ serializeValue v ++ "]\x7d"
  | .fnSplit d v =>
    "\x7b\"Fn::Split\":[\"" ++ d ++ "\"," ++ serializeValue v ++ "]\x7d"

/-- Comma-separated serialization of a list of values, in order. -/
def serializeValueList : List CfnValue → String
  | [] => ""
  | [v] => serializeValue v
  | v :: vs => serializeValue v ++ "," ++ serializeValueList vs

end

/-- Serialization of one emitted-entity record under its logical-id document
key. -/
def serializeRecord (lid : String) (rec : EmittedRecord) : String :=
  "\"" ++ lid ++ "\":\x7b\"Type\":\"" ++ rec.resourceType ++ "\",\"Properties\":\x7b" ++
    joinWith "," (rec.properties.map (fun p => "\"" ++ p.1 ++ "\":" ++ serializeValue p.2)) ++
    "\x7d,\"DependsOn\":[" ++
    joinWith "," (rec.dependsOn.map (fun d => "\"" ++ d ++ "\"")) ++ "]\x7d"

/-- Modelled from the spec: the serialized document of one boundary, the
mapping of logical id to emitted-entity record in emission order. -/
def serializeBoundary (b : Boundary) : String :=
  "\x7b\"Resources\":\x7b" ++
    joinWith "," ((assemble b).map (fun p => serializeRecord p.1 p.2)) ++ "\x7d\x7d"

/-- Modelled from the spec: a synthesis run serializes one document per
aggregation boundary, in order. -/
def synthesizeRun (boundaries : List Boundary) : List String :=
  boundaries.map serializeBoundary

/-- C6: synthesis is deterministic: two runs over the same frozen construct
tree (the same boundary list) produce byte-identical document sets.  In this
model a synthesis run is a pure function of the frozen input and of nothing
else, so equal inputs give equal bytes. -/
theorem C6_synthesis_deterministic (run1 run2 : List Boundary)
    (h : run1 = run2) : synthesizeRun run1 = synthesizeRun run2 := by
  rw [h]

/-- C6 witness: two synthesis runs over the one-boundary tree holding the
destination bucket produce the same bytes. -/
theorem C6_synthesis_deterministic_witness :
    synthesizeRun [⟨[⟨"Destination920A3C57", "AWS::S3::Bucket", []⟩], []⟩] =
      synthesizeRun [⟨[⟨"Destination920A3C57", "AWS::S3::Bucket", []⟩], []⟩] :=
  C6_synthesis_deterministic
    [⟨[⟨"Destination920A3C57", "AWS::S3::Bucket", []⟩], []⟩]
    [⟨[⟨"Destination920A3C57", "AWS::S3::Bucket", []⟩], []⟩] rfl

/-- Modelled from the spec: strip, from a path segment, every character
invalid for the target identifier alphabet (keep alphanumerics). -/
def sanitizeSegment (s : String) : String :=
  String.mk (s.toList.filter (fun c => c.isAlphanum))

/-- Modelled from the spec: a deterministic hash folded over the rendered
full path (every segment, not just the readable concatenation). -/
def pathHashNum (path : List String) : Nat :=
  (joinWith "/" path).toList.foldl (fun h c => (h * 31 + c.toNat) % 4294967296) 7

/-- The hexadecimal digit of a value below 16. -/
def hexDigit (n : Nat) : Char :=
  "0123456789abcdef".toList.getD n '0'

/-- Modelled from the spec: the fixed-length (eight hex characters) hash
suffix computed over the full path. -/
def pathHash (path : List String) : String :=
  String.mk ((List.range 8).map (fun i => hexDigit (pathHashNum path / 16 ^ (7 - i) % 16)))

/-- Modelled from the spec: `allocate(path)` is the sanitized human-readable
concatenation of the path segments followed by the fixed-length hash suffix
over the full path (cf. `Destination920A3C57`: readable name plus eight hex
characters). -/
def allocateId (path : List String) : String :=
  joinWith "" (path.map sanitizeSegment) ++ pathHash path

/-- Do two distinct paths of the node set allocate the same id? -/
def hasAllocCollision (paths : List (List String)) : Bool :=
  paths.any (fun p => paths.any (fun q => p != q && allocateId p == allocateId q))

/-- Modelled from the spec: allocation over the full set of node paths; a
collision between two distinct paths is the fatal `AllocationError`,
otherwise every path is mapped to its allocated id. -/
def allocateAll (paths : List (List String)) :
    Except String (List (List String × String)) :=
  if hasAllocCollision paths then
    .error "AllocationError"
  else
    .ok (paths.map (fun p => (p, allocateId p)))

/-- `hasAllocCollision` holds exactly when two distinct paths of the set
allocate the same id. -/
theorem hasAllocCollision_iff (paths : List (List String)) :
    hasAllocCollision paths = true ↔
      ∃ p ∈ paths, ∃ q ∈ paths, p ≠ q ∧ allocateId p = allocateId q := by
  simp [hasAllocCollision, List.any_eq_true, bne_iff_ne, beq_iff_eq]

/-- C7: the allocated id of a path is the sanitized readable concatenation
of its segments followed by the fixed-length (eight character) hash of the
full path; it is a pure function of the path, identical across runs;
allocation of a path set fails with the fatal `AllocationError` exactly when
two distinct paths collide on their allocated id; and whenever allocation
succeeds the allocated ids of distinct paths differ — in particular a moved
node, whose path changed, receives a different id from its old one. -/
theorem C7_logical_id_allocator (paths : List (List String)) :
    (∀ p, allocateId p = joinWith "" (p.map sanitizeSegment) ++ pathHash p ∧
      (pathHash p).length = 8) ∧
    (allocateAll paths = .error "AllocationError" ↔
      ∃ p ∈ paths, ∃ q ∈ paths, p ≠ q ∧ allocateId p = allocateId q) ∧
    (allocateAll paths = .ok (paths.map (fun p => (p, allocateId p))) ↔
      ∀ p ∈ paths, ∀ q ∈ paths, p ≠ q → allocateId p ≠ allocateId q) := by
  refine ⟨?_, ?_, ?_⟩
  · intro p
    refine ⟨rfl, ?_⟩
    simp [pathHash]
  · rw [← hasAllocCollision_iff]
    unfold allocateAll
    by_cases hc : hasAllocCollision paths = true
    · simp [hc]
    · simp [hc]
  · unfold allocateAll
    by_cases hc : hasAllocCollision paths = true
    · rw [if_pos hc]
      rw [hasAllocCollision_iff] at hc
      obtain ⟨p, hp, q, hq, hne, heq⟩ := hc
      constructor
      · intro hok
        exact Except.noConfusion hok
      · intro hinj
        exact absurd heq (hinj p hp q hq hne)
    · rw [if_neg hc]
      constructor
      · intro _ p hp q hq hne heq
        exact hc ((hasAllocCollision_iff paths).mpr ⟨p, hp, q, hq, hne, heq⟩)
      · intro _
        rfl

/-- C7 witness: the two asset paths of the bucket-deployment test tree. -/
theorem C7_logical_id_allocator_witness :
    (∀ p, allocateId p = joinWith "" (p.map sanitizeSegment) ++ pathHash p ∧
      (pathHash p).length = 8) ∧
    (allocateAll [["test-bucket-deployments-1", "DeployMe", "Asset"],
        ["test-bucket-deployments-1", "DeployWithPrefix", "Asset"]] =
      .error "AllocationError" ↔
      ∃ p ∈ [["test-bucket-deployments-1", "DeployMe", "Asset"],
        ["test-bucket-deployments-1", "DeployWithPrefix", "Asset"]],
      ∃ q ∈ [["test-bucket-deployments-1", "DeployMe", "Asset"],
        ["test-bucket-deployments-1", "DeployWithPrefix", "Asset"]],
      p ≠ q ∧ allocateId p = allocateId q) ∧
    (allocateAll [["test-bucket-deployments-1", "DeployMe", "Asset"],
        ["test-bucket-deployments-1", "DeployWithPrefix", "Asset"]] =
      .ok ([["test-bucket-deployments-1", "DeployMe", "Asset"],
        ["test-bucket-deployments-1", "DeployWithPrefix", "Asset"]].map
          (fun p => (p, allocateId p))) ↔
      ∀ p ∈ [["test-bucket-deployments-1", "DeployMe", "Asset"],
        ["test-bucket-deployments-1", "DeployWithPrefix", "Asset"]],
      ∀ q ∈ [["test-bucket-deployments-1", "DeployMe", "Asset"],
        ["test-bucket-deployments-1", "DeployWithPrefix", "Asset"]],
      p ≠ q → allocateId p ≠ allocateId q) :=
  C7_logical_id_allocator
    [["test-bucket-deployments-1", "DeployMe", "Asset"],
     ["test-bucket-deployments-1", "DeployWithPrefix", "Asset"]]

/-- A dependency graph over named nodes: the declaration-ordered node list
and the directed edges; edge `(a, b)` means `a` depends on `b`, so `b` must
be emitted before `a`. -/
structure DepGraph where
  nodes : List String
  edges : List (String × String)

/-- Well-formed graph: both endpoints of every edge are declared nodes, and
node names are unique. -/
def DepGraph.WF (g : DepGraph) : Prop :=
  (∀ e ∈ g.edges, e.1 ∈ g.nodes ∧ e.2 ∈ g.nodes) ∧ g.nodes.Nodup

/-- The edge relation of the graph. -/
def DepGraph.Edge (g : DepGraph) (a b : String) : Prop :=
  (a, b) ∈ g.edges

/-- A (possibly revisiting) dependency cycle: a nonempty node list whose
consecutive elements are joined by edges and whose last element has an edge
back to its head. -/
def IsCycle (g : DepGraph) : List String → Prop
  | [] => False
  | x :: rest => List.Chain g.Edge x (rest ++ [x])

/-- Does node `n` have a dependency that is not yet emitted? -/
def hasUnmetDep (g : DepGraph) (emitted : List String) (n : String) : Bool :=
  g.edges.any (fun e => e.1 == n && !(emitted.contains e.2))

/-- The first node, in declaration order, of the remaining nodes all of
whose dependencies are already emitted. -/
def pickNext (g : DepGraph) (emitted remaining : List String) : Option String :=
  remaining.find? (fun n => !(hasUnmetDep g emitted n))

/-- The first unmet dependency of a node, used only to exhibit the cycle
when the sort is stuck (a node without an unmet dependency is mapped to
itself). -/
def stepDep (g : DepGraph) (emitted : List String) (n : String) : String :=
  match g.edges.find? (fun e => e.1 == n && !(emitted.contains e.2)) with
  | some e => e.2
  | none => n

/-- The walk `[step x, step (step x), ...]` of length `k`. -/
def depWalk (step : String → String) (x : String) : Nat → List String
  | 0 => []
  | k + 1 => step x :: depWalk step (step x) k

/-- Search for a pair `i < j ≤ n` with `step^[i] s = step^[j] s`. -/
def findRepeatPair (step : String → String) (s : String) (n : Nat) :
    Option (Nat × Nat) :=
  ((List.range (n + 1)).flatMap (fun j => (List.range j).map (fun i => (i, j)))).find?
    (fun p => step^[p.1] s == step^[p.2] s)

/-- Extract a cycle from a stuck state: every remaining node then has an
unmet dependency among the remaining nodes, so iterating `stepDep` from the
head of `remaining` must revisit a node; the segment between the two visits
is the cycle reported by the cyclic-dependency error. -/
def extractCycle (g : DepGraph) (emitted remaining : List String) : List String :=
  let step := stepDep g emitted
  let s := remaining.headD ""
  match findRepeatPair step s remaining.length with
  | some (i, j) => step^[i] s :: depWalk step (step^[i] s) (j - i - 1)
  | none => []

/-- Modelled from the spec: topological emission ordering.  Repeatedly emit
the first declaration-ordered node whose dependencies are all emitted
(declaration order breaks ties deterministically); when no node is emittable
and nodes remain, the graph is cyclic and the cycle is reported as the fatal
cyclic-dependency error. -/
def kahnAux (g : DepGraph) (remaining emitted : List String) :
    Except (List String) (List String) :=
  match hpick : pickNext g emitted remaining with
  | some n => kahnAux g (remaining.erase n) (emitted ++ [n])
  | none =>
    if remaining.isEmpty then .ok emitted
    else .error (extractCycle g emitted remaining)
termination_by remaining.length
decreasing_by
  have hn : n ∈ remaining := List.mem_of_find?_eq_some hpick
  have hlen := List.length_erase_of_mem hn
  have hpos : 0 < remaining.length := List.length_pos.mpr (List.ne_nil_of_mem hn)
  omega

/-- Modelled from the spec: emission ordering of the whole graph starting
from the declaration order. -/
def toposort (g : DepGraph) : Except (List String) (List String) :=
  kahnAux g g.nodes []

/-- Along a walk from a point of a step-closed set, consecutive elements are
step-related. -/
theorem depWalk_chain {R : String → String → Prop} {S : List String}
    {step : String → String}
    (hR : ∀ x ∈ S, R x (step x)) (hcl : ∀ x ∈ S, step x ∈ S) :
    ∀ (k : Nat) (x : String), x ∈ S → List.Chain R x (depWalk step x k) := by
  intro k
  induction k with
  | zero =>
    intro x _
    exact List.Chain.nil
  | succ k ih =>
    intro x hx
    exact List.Chain.cons (hR x hx) (ih (step x) (hcl x hx))

/-- A walk from a point of a step-closed set stays in the set. -/
theorem depWalk_mem {S : List String} {step : String → String}
    (hcl : ∀ x ∈ S, step x ∈ S) :
    ∀ (k : Nat) (x : String), x ∈ S → ∀ y ∈ depWalk step x k, y ∈ S := by
  intro k
  induction k with
  | zero =>
    intro x _ y hy
    exact absurd hy (List.not_mem_nil y)
  | succ k ih =>
    intro x hx y hy
    rcases List.mem_cons.mp hy with h | h
    · rw [h]
      exact hcl x hx
    · exact ih (step x) (hcl x hx) y h

/-- Unfolding a walk at its far end. -/
theorem depWalk_succ (step : String → String) :
    ∀ (k : Nat) (x : String),
      depWalk step x (k + 1) = depWalk step x k ++ [step^[k + 1] x] := by
  intro k
  induction k with
  | zero =>
    intro x
    simp [depWalk, Function.iterate_one]
  | succ k ih =>
    intro x
    show step x :: depWalk step (step x) (k + 1) =
      (step x :: depWalk step (step x) k) ++ [step^[k + 1 + 1] x]
    rw [ih (step x)]
    rw [Function.iterate_succ_apply step (k + 1) x]
    simp

/-- Iterating a step keeps membership in a step-closed set. -/
theorem iterate_mem_of_closed {S : List String} {step : String → String}
    (hcl : ∀ x ∈ S, step x ∈ S) :
    ∀ (k : Nat) (x : String), x ∈ S → step^[k] x ∈ S := by
  intro k
  induction k with
  | zero =>
    intro x hx
    exact hx
  | succ k ih =>
    intro x hx
    rw [Function.iterate_succ_apply]
    exact ih (step x) (hcl x hx)

/-- Soundness of the repeat-pair search. -/
theorem findRepeatPair_some {step : String → String} {s : String} {n : Nat}
    {i j : Nat} (h : findRepeatPair step s n = some (i, j)) :
    i < j ∧ step^[i] s = step^[j] s := by
  have hmem := List.mem_of_find?_eq_some h
  have hpred := List.find?_some h
  constructor
  · rw [List.mem_flatMap] at hmem
    obtain ⟨j', _, hij⟩ := hmem
    rw [List.mem_map] at hij
    obtain ⟨i', hi', hpair⟩ := hij
    have hi : i' = i := congrArg Prod.fst hpair
    have hj : j' = j := congrArg Prod.snd hpair
    rw [← hi, ← hj]
    exact List.mem_range.mp hi'
  · exact beq_iff_eq.mp hpred

/-- Completeness of the repeat-pair search. -/
theorem findRepeatPair_isSome {step : String → String} {s : String} {n : Nat}
    (h : ∃ i j, i < j ∧ j ≤ n ∧ step^[i] s = step^[j] s) :
    (findRepeatPair step s n).isSome := by
  obtain ⟨i, j, hij, hjn, heq⟩ := h
  rw [findRepeatPair, List.find?_isSome]
  refine ⟨(i, j), ?_, ?_⟩
  · rw [List.mem_flatMap]
    exact ⟨j, List.mem_range.mpr (Nat.lt_succ_of_le hjn),
      List.mem_map.mpr ⟨i, List.mem_range.mpr hij, rfl⟩⟩
  · exact beq_iff_eq.mpr heq

/-- Pigeonhole: iterating a step inside a finite step-closed set must
revisit some value within `|S| + 1` iterations. -/
theorem exists_repeat_of_closed {S : List String} {step : String → String}
    (hcl : ∀ x ∈ S, step x ∈ S) {s : String} (hs : s ∈ S) :
    ∃ i j, i < j ∧ j ≤ S.length ∧ step^[i] s = step^[j] s := by
  have hmaps : ∀ m ∈ Finset.range (S.length + 1), step^[m] s ∈ S.toFinset := by
    intro m _
    rw [List.mem_toFinset]
    exact iterate_mem_of_closed hcl m s hs
  have hcard : S.toFinset.card < (Finset.range (S.length + 1)).card := by
    rw [Finset.card_range]
    exact Nat.lt_succ_of_le S.toFinset_card_le
  obtain ⟨a, ha, b, hb, hne, heq⟩ :=
    Finset.exists_ne_map_eq_of_card_lt_of_maps_to hcard hmaps
  rcases Nat.lt_or_ge a b with hab | hab
  · exact ⟨a, b, hab, Nat.lt_succ_iff.mp (Finset.mem_range.mp hb), heq⟩
  · have hba : b < a := Nat.lt_of_le_of_ne hab (fun hh => hne hh.symm)
    exact ⟨b, a, hba, Nat.lt_succ_iff.mp (Finset.mem_range.mp ha), heq.symm⟩

/-- A node with an unmet dependency steps to a genuine dependency that is
not yet emitted. -/
theorem stepDep_spec {g : DepGraph} {emitted : List String} {x : String}
    (h : hasUnmetDep g emitted x = true) :
    (x, stepDep g emitted x) ∈ g.edges ∧ stepDep g emitted x ∉ emitted := by
  rw [hasUnmetDep, List.any_eq_true] at h
  have hfind : (g.edges.find? (fun e => e.1 == x && !(emitted.contains e.2))).isSome := by
    rw [List.find?_isSome]
    exact h
  obtain ⟨e', hfe⟩ := Option.isSome_iff_exists.mp hfind
  have hmem := List.mem_of_find?_eq_some hfe
  have hp := List.find?_some hfe
  rw [Bool.and_eq_true] at hp
  have h1 : e'.1 = x := beq_iff_eq.mp hp.1
  have h2 : e'.2 ∉ emitted := by
    intro hin
    have hc : emitted.contains e'.2 = true := List.elem_iff.mpr hin
    rw [hc] at hp
    exact Bool.noConfusion hp.2
  have hstep : stepDep g emitted x = e'.2 := by
    rw [stepDep, hfe]
  rw [hstep]
  refine ⟨?_, h2⟩
  have heeq : (x, e'.2) = e' := by
    rw [← h1]
  rw [heeq]
  exact hmem

/-- A point of a step-closed set whose iterate returns to itself yields a
dependency cycle through the walk of the iterates. -/
theorem cycle_of_closed_step {g : DepGraph} {S : List String}
    {step : String → String}
    (hR : ∀ x ∈ S, g.Edge x (step x)) (hcl : ∀ x ∈ S, step x ∈ S)
    {a : String} (ha : a ∈ S) {k : Nat} (hk : step^[k] a = a) (hkpos : 0 < k) :
    IsCycle g (a :: depWalk step a (k - 1)) ∧
      ∀ y ∈ a :: depWalk step a (k - 1), y ∈ S := by
  constructor
  · show List.Chain g.Edge a (depWalk step a (k - 1) ++ [a])
    have hk1 : k - 1 + 1 = k := Nat.succ_pred_eq_of_pos hkpos
    have hwalk : depWalk step a k = depWalk step a (k - 1) ++ [a] := by
      calc depWalk step a k = depWalk step a (k - 1 + 1) := by rw [hk1]
        _ = depWalk step a (k - 1) ++ [step^[k - 1 + 1] a] := depWalk_succ step (k - 1) a
        _ = depWalk step a (k - 1) ++ [a] := by rw [hk1, hk]
    rw [← hwalk]
    exact depWalk_chain hR hcl k a ha
  · intro y hy
    rcases List.mem_cons.mp hy with h | h
    · rw [h]
      exact ha
    · exact depWalk_mem hcl (k - 1) a ha y h

/-- When every remaining node steps to an unmet dependency inside the
remaining set, the extracted node list is a genuine dependency cycle lying
inside the remaining set. -/
theorem extractCycle_isCycle {g : DepGraph} {emitted remaining : List String}
    (hne : remaining ≠ [])
    (hstuck : ∀ x ∈ remaining,
      (x, stepDep g emitted x) ∈ g.edges ∧ stepDep g emitted x ∈ remaining) :
    IsCycle g (extractCycle g emitted remaining) ∧
      ∀ y ∈ extractCycle g emitted remaining, y ∈ remaining := by
  have hcl : ∀ x ∈ remaining, stepDep g emitted x ∈ remaining :=
    fun x hx => (hstuck x hx).2
  have hR : ∀ x ∈ remaining, g.Edge x (stepDep g emitted x) :=
    fun x hx => (hstuck x hx).1
  have hs : remaining.headD "" ∈ remaining := by
    cases remaining with
    | nil => exact absurd rfl hne
    | cons a l => exact List.mem_cons_self a l
  obtain ⟨⟨i, j⟩, hfp⟩ := Option.isSome_iff_exists.mp
    (findRepeatPair_isSome (exists_repeat_of_closed hcl hs))
  obtain ⟨hij, heq⟩ := findRepeatPair_some hfp
  have hext : extractCycle g emitted remaining =
      (stepDep g emitted)^[i] (remaining.headD "") ::
        depWalk (stepDep g emitted)
          ((stepDep g emitted)^[i] (remaining.headD "")) (j - i - 1) := by
    simp only [extractCycle]
    rw [hfp]
  rw [hext]
  have ha : (stepDep g emitted)^[i] (remaining.headD "") ∈ remaining :=
    iterate_mem_of_closed hcl i _ hs
  have hk : (stepDep g emitted)^[j - i]
      ((stepDep g emitted)^[i] (remaining.headD "")) =
      (stepDep g emitted)^[i] (remaining.headD "") := by
    rw [← Function.iterate_add_apply]
    have hji : j - i + i = j := Nat.sub_add_cancel (Nat.le_of_lt hij)
    rw [hji]
    exact heq.symm
  exact cycle_of_closed_step hR hcl ha hk (Nat.sub_pos_of_lt hij)

/-- When no remaining node is emittable, every remaining node has an unmet
dependency, and that dependency is itself a remaining node. -/
theorem stuck_spec {g : DepGraph} {emitted remaining : List String}
    (hwf : g.WF) (hperm : g.nodes.Perm (emitted ++ remaining))
    (hnone : pickNext g emitted remaining = none) :
    ∀ x ∈ remaining,
      (x, stepDep g emitted x) ∈ g.edges ∧ stepDep g emitted x ∈ remaining := by
  intro x hx
  rw [pickNext, List.find?_eq_none] at hnone
  have hunmet : hasUnmetDep g emitted x = true := by
    have hthis := hnone x hx
    simp at hthis
    exact hthis
  obtain ⟨hedge, hnotem⟩ := stepDep_spec hunmet
  refine ⟨hedge, ?_⟩
  have hnode : stepDep g emitted x ∈ g.nodes := (hwf.1 _ hedge).2
  have hmem : stepDep g emitted x ∈ emitted ++ remaining := hperm.mem_iff.mp hnode
  rcases List.mem_append.mp hmem with h | h
  · exact absurd h hnotem
  · exact h

/-- One-step unfolding of the emission loop. -/
theorem kahnAux_eq (g : DepGraph) (remaining emitted : List String) :
    kahnAux g remaining emitted =
      match pickNext g emitted remaining with
      | some n => kahnAux g (remaining.erase n) (emitted ++ [n])
      | none =>
        if remaining.isEmpty then .ok emitted
        else .error (extractCycle g emitted remaining) := by
  rw [kahnAux]
  cases hp : pickNext g emitted remaining <;> rfl

/-- The emission loop at a state where no node is emittable: an empty
remainder returns the emitted order, a nonempty remainder reports a genuine
cycle of graph nodes. -/
theorem kahnAux_none_spec (g : DepGraph) (hwf : g.WF)
    (remaining emitted : List String)
    (hperm : g.nodes.Perm (emitted ++ remaining))
    (hinv : ∀ e ∈ g.edges, e.1 ∈ emitted →
      e.2 ∈ emitted ∧ List.indexOf e.2 emitted < List.indexOf e.1 emitted)
    (hpick : pickNext g emitted remaining = none) :
    (∀ c, kahnAux g remaining emitted = .error c →
      IsCycle g c ∧ ∀ y ∈ c, y ∈ g.nodes) ∧
    (∀ ord, kahnAux g remaining emitted = .ok ord →
      g.nodes.Perm ord ∧
      ∀ e ∈ g.edges, List.indexOf e.2 ord < List.indexOf e.1 ord) := by
  cases remaining with
  | nil =>
    have hkahn : kahnAux g [] emitted = .ok emitted := by
      rw [kahnAux_eq, hpick]
      rfl
    constructor
    · intro c hc
      rw [hkahn] at hc
      exact Except.noConfusion hc
    · intro ord hord
      rw [hkahn] at hord
      have hordeq : emitted = ord := by
        injection hord
      subst hordeq
      constructor
      · simpa using hperm
      · intro e he
        have h1 : e.1 ∈ emitted := by
          have hn := (hwf.1 e he).1
          have hm := hperm.mem_iff.mp hn
          simpa using hm
        exact (hinv e he h1).2
  | cons a l =>
    have hkahn : kahnAux g (a :: l) emitted =
        .error (extractCycle g emitted (a :: l)) := by
      rw [kahnAux_eq, hpick]
      simp
    constructor
    · intro c hc
      rw [hkahn] at hc
      have hceq : extractCycle g emitted (a :: l) = c := by
        injection hc
      subst hceq
      have hstuck := stuck_spec hwf hperm hpick
      obtain ⟨hcyc, hmem⟩ := extractCycle_isCycle (List.cons_ne_nil a l) hstuck
      refine ⟨hcyc, ?_⟩
      intro y hy
      exact hperm.mem_iff.mpr (List.mem_append.mpr (Or.inr (hmem y hy)))
    · intro ord hord
      rw [hkahn] at hord
      exact Except.noConfusion hord

/-- Invariant-carrying specification of the emission loop: from any state
whose emitted order is consistent and which partitions the nodes, an error
reports a genuine cycle and a success extends to a consistent topological
order of all nodes. -/
theorem kahnAux_spec (g : DepGraph) (hwf : g.WF) :
    ∀ (N : Nat) (remaining emitted : List String), remaining.length ≤ N →
    g.nodes.Perm (emitted ++ remaining) →
    (∀ e ∈ g.edges, e.1 ∈ emitted →
      e.2 ∈ emitted ∧ List.indexOf e.2 emitted < List.indexOf e.1 emitted) →
    (∀ c, kahnAux g remaining emitted = .error c →
      IsCycle g c ∧ ∀ y ∈ c, y ∈ g.nodes) ∧
    (∀ ord, kahnAux g remaining emitted = .ok ord →
      g.nodes.Perm ord ∧
      ∀ e ∈ g.edges, List.indexOf e.2 ord < List.indexOf e.1 ord) := by
  intro N
  induction N with
  | zero =>
    intro remaining emitted hlen hperm hinv
    have hrem : remaining = [] := List.length_eq_zero.mp (Nat.le_zero.mp hlen)
    subst hrem
    exact kahnAux_none_spec g hwf [] emitted hperm hinv rfl
  | succ N ih =>
    intro remaining emitted hlen hperm hinv
    cases hpick : pickNext g emitted remaining with
    | none => exact kahnAux_none_spec g hwf remaining emitted hperm hinv hpick
    | some n =>
      have hn_mem : n ∈ remaining := List.mem_of_find?_eq_some hpick
      have hn_ok : hasUnmetDep g emitted n = false := by
        have hp := List.find?_some hpick
        rwa [Bool.not_eq_eq_eq_not, Bool.not_true] at hp
      have hnd : (emitted ++ remaining).Nodup := hperm.nodup hwf.2
      have hdisj : emitted.Disjoint remaining := (List.nodup_append.mp hnd).2.2
      have hn_notem : n ∉ emitted := fun hin => hdisj hin hn_mem
      have hperm' : g.nodes.Perm ((emitted ++ [n]) ++ remaining.erase n) := by
        have h1 : remaining.Perm (n :: remaining.erase n) := List.perm_cons_erase hn_mem
        have h2 : (emitted ++ remaining).Perm (emitted ++ (n :: remaining.erase n)) :=
          List.Perm.append_left emitted h1
        rw [← List.append_cons]
        exact hperm.trans h2
      have hinv' : ∀ e ∈ g.edges, e.1 ∈ emitted ++ [n] →
          e.2 ∈ emitted ++ [n] ∧
          List.indexOf e.2 (emitted ++ [n]) < List.indexOf e.1 (emitted ++ [n]) := by
        intro e he h1mem
        rcases List.mem_append.mp h1mem with h1 | h1
        · obtain ⟨h2, hlt⟩ := hinv e he h1
          refine ⟨List.mem_append.mpr (Or.inl h2), ?_⟩
          rw [List.indexOf_append_of_mem h2, List.indexOf_append_of_mem h1]
          exact hlt
        · have h1n : e.1 = n := List.mem_singleton.mp h1
          have hdep : e.2 ∈ emitted := by
            by_contra hdep
            have hc : emitted.contains e.2 = false := by
              rw [Bool.eq_false_iff]
              intro hcc
              exact hdep (List.elem_iff.mp hcc)
            have hum : hasUnmetDep g emitted n = true := by
              rw [hasUnmetDep, List.any_eq_true]
              refine ⟨e, he, ?_⟩
              rw [Bool.and_eq_true]
              refine ⟨beq_iff_eq.mpr h1n, ?_⟩
              rw [hc]
              rfl
            rw [hum] at hn_ok
            exact Bool.noConfusion hn_ok
          refine ⟨List.mem_append.mpr (Or.inl hdep), ?_⟩
          rw [h1n]
          rw [List.indexOf_append_of_mem hdep]
          rw [List.indexOf_append_of_not_mem hn_notem]
          rw [List.indexOf_cons_self, Nat.add_zero]
          exact List.indexOf_lt_length.mpr hdep
      have hlen' : (remaining.erase n).length ≤ N := by
        have he := List.length_erase_of_mem hn_mem
        have hpos : 0 < remaining.length :=
          List.length_pos.mpr (List.ne_nil_of_mem hn_mem)
        omega
      have hstep : kahnAux g remaining emitted =
          kahnAux g (remaining.erase n) (emitted ++ [n]) := by
        rw [kahnAux_eq, hpick]
      rw [hstep]
      exact ih (remaining.erase n) (emitted ++ [n]) hlen' hperm' hinv'

/-- Along a chain whose relation strictly decreases a measure, every chain
element measures below the start. -/
theorem chain_measure_lt {R : String → String → Prop} {m : String → Nat}
    (hmono : ∀ a b, R a b → m b < m a) :
    ∀ (l : List String) (x : String), List.Chain R x l → ∀ y ∈ l, m y < m x := by
  intro l
  induction l with
  | nil =>
    intro x _ y hy
    exact absurd hy (List.not_mem_nil y)
  | cons b t ih =>
    intro x hchain y hy
    rw [List.chain_cons] at hchain
    rcases List.mem_cons.mp hy with h | h
    · rw [h]
      exact hmono x b hchain.1
    · exact Nat.lt_trans (ih b hchain.2 y h) (hmono x b hchain.1)

/-- A dependency cycle admits no emission order that places every
dependency strictly before its dependent. -/
theorem no_cycle_in_consistent_order {g : DepGraph} {ord : List String}
    (hcons : ∀ e ∈ g.edges, List.indexOf e.2 ord < List.indexOf e.1 ord)
    {c : List String} (hcyc : IsCycle g c) : False := by
  cases c with
  | nil => exact hcyc
  | cons x rest =>
    have hchain : List.Chain g.Edge x (rest ++ [x]) := hcyc
    have hmono : ∀ a b, g.Edge a b → List.indexOf b ord < List.indexOf a ord :=
      fun a b hab => hcons (a, b) hab
    have hx : x ∈ rest ++ [x] :=
      List.mem_append.mpr (Or.inr (List.mem_singleton.mpr rfl))
    exact Nat.lt_irrefl _ (chain_measure_lt hmono (rest ++ [x]) x hchain x hx)

/-- C8: on a well-formed dependency graph, an emission-ordering failure
always reports a genuine cycle made of graph nodes (so the error names every
node on the cycle), and an emission-ordering success is a permutation of the
nodes in which every dependency precedes its dependent; consequently every
graph containing a cycle fails with the cycle error, and every acyclic graph
synthesizes successfully in a topological order consistent with all edges. -/
theorem C8_cycle_rejection_topological_order (g : DepGraph) (hwf : g.WF) :
    (∀ c, toposort g = .error c → IsCycle g c ∧ ∀ y ∈ c, y ∈ g.nodes) ∧
    (∀ ord, toposort g = .ok ord → g.nodes.Perm ord ∧
      ∀ e ∈ g.edges, List.indexOf e.2 ord < List.indexOf e.1 ord) ∧
    ((∃ c, IsCycle g c) →
      ∃ c, toposort g = .error c ∧ IsCycle g c ∧ ∀ y ∈ c, y ∈ g.nodes) ∧
    ((∀ c, ¬ IsCycle g c) →
      ∃ ord, toposort g = .ok ord ∧ g.nodes.Perm ord ∧
        ∀ e ∈ g.edges, List.indexOf e.2 ord < List.indexOf e.1 ord) := by
  have hspec := kahnAux_spec g hwf g.nodes.length g.nodes [] (Nat.le_refl _)
    (List.Perm.refl g.nodes)
    (by intro e _ h1; exact absurd h1 (List.not_mem_nil e.1))
  obtain ⟨herr, hok⟩ := hspec
  refine ⟨herr, hok, ?_, ?_⟩
  · intro hex
    obtain ⟨c₀, hc₀⟩ := hex
    cases htop : toposort g with
    | error c =>
      exact ⟨c, rfl, (herr c htop).1, (herr c htop).2⟩
    | ok ord =>
      obtain ⟨_, hcons⟩ := hok ord htop
      exact (no_cycle_in_consistent_order hcons hc₀).elim
  · intro hnone
    cases htop : toposort g with
    | error c =>
      exact absurd ((herr c htop).1) (hnone c)
    | ok ord =>
      obtain ⟨hp, hcons⟩ := hok ord htop
      exact ⟨ord, rfl, hp, hcons⟩

/-- C8 witness: the spec's three-node example with edges A→B, B→C, C→A. -/
theorem C8_cycle_rejection_topological_order_witness :
    (DepGraph.WF ⟨["A", "B", "C"], [("A", "B"), ("B", "C"), ("C", "A")]⟩) ∧
    ((∀ c, toposort ⟨["A", "B", "C"], [("A", "B"), ("B", "C"), ("C", "A")]⟩ = .error c →
      IsCycle ⟨["A", "B", "C"], [("A", "B"), ("B", "C"), ("C", "A")]⟩ c ∧
        ∀ y ∈ c, y ∈ ["A", "B", "C"]) ∧
    (∀ ord, toposort ⟨["A", "B", "C"], [("A", "B"), ("B", "C"), ("C", "A")]⟩ = .ok ord →
      List.Perm ["A", "B", "C"] ord ∧
      ∀ e ∈ [("A", "B"), ("B", "C"), ("C", "A")],
        List.indexOf e.2 ord < List.indexOf e.1 ord) ∧
    ((∃ c, IsCycle ⟨["A", "B", "C"], [("A", "B"), ("B", "C"), ("C", "A")]⟩ c) →
      ∃ c, toposort ⟨["A", "B", "C"], [("A", "B"), ("B", "C"), ("C", "A")]⟩ = .error c ∧
        IsCycle ⟨["A", "B", "C"], [("A", "B"), ("B", "C"), ("C", "A")]⟩ c ∧
        ∀ y ∈ c, y ∈ ["A", "B", "C"]) ∧
    ((∀ c, ¬ IsCycle ⟨["A", "B", "C"], [("A", "B"), ("B", "C"), ("C", "A")]⟩ c) →
      ∃ ord, toposort ⟨["A", "B", "C"], [("A", "B"), ("B", "C"), ("C", "A")]⟩ = .ok ord ∧
        List.Perm ["A", "B", "C"] ord ∧
        ∀ e ∈ [("A", "B"), ("B", "C"), ("C", "A")],
          List.indexOf e.2 ord < List.indexOf e.1 ord)) :=
  ⟨⟨by decide, by decide⟩,
    C8_cycle_rejection_topological_order
      ⟨["A", "B", "C"], [("A", "B"), ("B", "C"), ("C", "A")]⟩ ⟨by decide, by decide⟩⟩
